import Mathlib

set_option linter.unusedVariables false

/-!  Verification of the LM Studio translator core (`app.py`): the chunker
`split_text_into_chunks`, the prompt builder `create_formatted_prompt`, and
the two translation drivers `translate_streaming` (streaming, fail-fast) and
`translate_file_process` (batch/file, fail-soft).  Python strings are
modelled as lists of characters; the external completion service is modelled
as an oracle indexed by chunk number, so one run of a driver is a pure
function of the input text and the oracle. -/

/-- Python `str` is modelled as a list of characters (code points). -/
abbrev Text := List Char

/-- Tests whether `p` is a leading piece of `s` (helper for `str.split`). -/
def startsWith : Text → Text → Bool
  | _, [] => true
  | [], _ :: _ => false
  | c :: s, d :: p => c == d && startsWith s p

/-- Finds the leftmost occurrence of `sep` in the text, returning the pieces
before and after it (helper for `str.split`). -/
def splitFirst (sep : Text) : Text → Option (Text × Text)
  | [] => none
  | c :: s =>
    if startsWith (c :: s) sep then some ([], (c :: s).drop sep.length)
    else
      match splitFirst sep s with
      | some (pre, post) => some (c :: pre, post)
      | none => none

/-- Python `seg.split(sep)`, written with fuel to bound the recursion; fuel
`s.length` is enough for the (non-empty) separators used by the chunker,
since every found occurrence strictly shortens the remaining text. -/
def splitOnFuel (sep : Text) : Nat → Text → List Text
  | 0, s => [s]
  | fuel + 1, s =>
    match splitFirst sep s with
    | none => [s]
    | some (pre, post) => pre :: splitOnFuel sep fuel post

/-- Python `seg.split(sep)` (for the non-empty separators used here). -/
def splitOn (sep s : Text) : List Text := splitOnFuel sep s.length s

/-- Re-attaches the separator to every split part except the last one:
`[p + sep for p in parts[:-1]] + [parts[-1]]` from the decomposition loop. -/
def reattachSep (sep : Text) : List Text → List Text
  | [] => []
  | [p] => [p]
  | p :: q :: rest => (p ++ sep) :: reattachSep sep (q :: rest)

/-- One pass of the top-down decomposition in `split_text_into_chunks`:
segments already within the limit pass through; a longer segment is split on
`sep` (kept whole when `sep` does not occur in it, i.e. the split yields a
single part), with `sep` re-attached to every part but the last. -/
def decomposeStep (max_chunk_size : Nat) (sep : Text) (segments : List Text) : List Text :=
  List.flatten (segments.map fun seg =>
    if seg.length ≤ max_chunk_size then [seg]
    else
      let parts := splitOn sep seg
      if parts.length = 1 then [seg]
      else reattachSep sep parts)

/-- Separator hierarchy of `split_text_into_chunks`, richest to weakest. -/
def separators : List Text :=
  [("\n\n").toList, ("\n").toList, (". ").toList, ("? ").toList, ("! ").toList, (" ").toList]

/-- Phase 1 of `split_text_into_chunks`: top-down decomposition over the
whole separator hierarchy, starting from the text as one giant segment. -/
def decompose (max_chunk_size : Nat) (text : Text) : List Text :=
  separators.foldl (fun segments sep => decomposeStep max_chunk_size sep segments) [text]

/-- Fixed-size character slicing, `seg[i:i+max_chunk_size]` for `i` in
`range(0, len(seg), max_chunk_size)`, written with fuel; fuel `seg.length`
is enough whenever `1 ≤ max_chunk_size`. -/
def hardSplit (max_chunk_size : Nat) : Nat → Text → List Text
  | _, [] => []
  | 0, c :: s => [c :: s]
  | fuel + 1, c :: s =>
      (c :: s).take max_chunk_size :: hardSplit max_chunk_size fuel ((c :: s).drop max_chunk_size)

/-- Phase 2 of `split_text_into_chunks`: any segment still longer than the
limit is force-cut into `max_chunk_size`-character slices. -/
def hardSplitPass (max_chunk_size : Nat) (segments : List Text) : List Text :=
  List.flatten (segments.map fun seg =>
    if max_chunk_size < seg.length then hardSplit max_chunk_size seg.length seg
    else [seg])

/-- Phase 3 of `split_text_into_chunks`: greedy left-to-right merge of atoms
into chunks via the `current_chunk` accumulator; a closed chunk is emitted
only when non-empty, and the final accumulator is emitted when non-empty. -/
def mergeAtoms (max_chunk_size : Nat) : List Text → Text → List Text
  | [], current_chunk => if current_chunk = [] then [] else [current_chunk]
  | atom :: rest, current_chunk =>
    if current_chunk.length + atom.length ≤ max_chunk_size then
      mergeAtoms max_chunk_size rest (current_chunk ++ atom)
    else if current_chunk = [] then
      mergeAtoms max_chunk_size rest atom
    else
      current_chunk :: mergeAtoms max_chunk_size rest atom

/-- Function `split_text_into_chunks(text, max_chunk_size)` from `app.py`:
empty text gives no chunks; otherwise decompose, hard-split, then merge. -/
def split_text_into_chunks (text : Text) (max_chunk_size : Nat) : List Text :=
  if text = [] then []
  else mergeAtoms max_chunk_size (hardSplitPass max_chunk_size (decompose max_chunk_size text)) []

/-- Language-code table `code_map` from `create_formatted_prompt`. -/
def code_map : List (String × String) :=
  [("English", "en"), ("Korean", "ko"), ("Japanese", "ja"), ("Chinese", "zh"),
   ("Spanish", "es"), ("French", "fr"), ("German", "de"), ("Russian", "ru")]

/-- Function `create_formatted_prompt(source_lang, target_lang, text)` from
`app.py`: two template branches selected by the "Auto Detect" sentinel, each
ending with the chunk text appended verbatim. -/
def create_formatted_prompt (source_lang target_lang : String) (text : Text) : Text :=
  let source_code := (List.lookup source_lang code_map).getD "auto"
  let target_code := (List.lookup target_lang code_map).getD "en"
  if source_lang = "Auto Detect" then
    (s!"You are a professional translator. Identify the language of the following text and translate it into {target_lang} ({target_code}). Your goal is to accurately convey the meaning and nuances of the original text while adhering to {target_lang} grammar, vocabulary, and cultural sensitivities.\nProduce only the {target_lang} translation, without any additional explanations or commentary. Please translate the following text into {target_lang}:\n\n").toList
      ++ text
  else
    (s!"You are a professional {source_lang} ({source_code}) to {target_lang} ({target_code}) translator. Your goal is to accurately convey the meaning and nuances of the original {source_lang} text while adhering to {target_lang} grammar, vocabulary, and cultural sensitivities.\nProduce only the {target_lang} translation, without any additional explanations or commentary. Please translate the following {source_lang} text into {target_lang}:\n\n\n").toList
      ++ text

/-- Template head of the "Auto Detect" branch of `create_formatted_prompt`
(everything before the embedded chunk text). -/
def autoDetectHead (target_lang : String) : Text :=
  let target_code := (List.lookup target_lang code_map).getD "en"
  (s!"You are a professional translator. Identify the language of the following text and translate it into {target_lang} ({target_code}). Your goal is to accurately convey the meaning and nuances of the original text while adhering to {target_lang} grammar, vocabulary, and cultural sensitivities.\nProduce only the {target_lang} translation, without any additional explanations or commentary. Please translate the following text into {target_lang}:\n\n").toList

/-- Template head of the professional-translator branch of
`create_formatted_prompt` (everything before the embedded chunk text). -/
def translatorHead (source_lang target_lang : String) : Text :=
  let source_code := (List.lookup source_lang code_map).getD "auto"
  let target_code := (List.lookup target_lang code_map).getD "en"
  (s!"You are a professional {source_lang} ({source_code}) to {target_lang} ({target_code}) translator. Your goal is to accurately convey the meaning and nuances of the original {source_lang} text while adhering to {target_lang} grammar, vocabulary, and cultural sensitivities.\nProduce only the {target_lang} translation, without any additional explanations or commentary. Please translate the following {source_lang} text into {target_lang}:\n\n\n").toList

/-- Outcome of one streaming completion request: the `delta.content` values
observed in arrival order (a `none` entry is a fragment with no content,
skipped by the loop), followed by either a clean end of stream
(`err = none`) or an exception raised after those fragments
(`err = some msg`). -/
structure StreamOutcome where
  frags : List (Option Text)
  err : Option String

/-- Streaming completion service as an oracle over (chunk number, prompt);
model name and temperature are fixed per job and folded into the oracle. -/
abbrev StreamService := Nat → Text → StreamOutcome

/-- Value of `chunk_accumulated` after the fragment loop: concatenation of
the non-`none` fragments in arrival order. -/
def accumFrags : List (Option Text) → Text
  | [] => []
  | none :: rest => accumFrags rest
  | some f :: rest => f ++ accumFrags rest

/-- Views yielded while fragments of the current chunk arrive: after each
non-`none` fragment, previously finished chunks plus the partial translation
accumulated so far, with the processing label. -/
def fragYields (full_translation : Text) (progress_str : String) :
    List (Option Text) → Text → List (Text × String)
  | [], _ => []
  | none :: rest, acc => fragYields full_translation progress_str rest acc
  | some f :: rest, acc =>
      (full_translation ++ (acc ++ f), progress_str)
        :: fragYields full_translation progress_str rest (acc ++ f)

/-- Progress label `"Processing chunk {i+1} of {total}..."`. -/
def processingLabel (i total : Nat) : String := s!"Processing chunk {i+1} of {total}..."

/-- Progress label `"Completed {i+1} of {total} chunks."`. -/
def completedLabel (i total : Nat) : String := s!"Completed {i+1} of {total} chunks."

/-- Progress label `"Error on chunk {i+1}"`. -/
def errorLabel (i : Nat) : String := s!"Error on chunk {i+1}"

/-- Separator `"\n\n"` appended after every finished chunk translation. -/
def chunkSep : Text := ("\n\n").toList

/-- Inline error marker appended by `translate_streaming` when chunk `i`
(0-based; printed 1-based) fails. -/
def errorMarker (i : Nat) (e base_url : String) : Text :=
  (s!"\n[Error translating chunk {i+1}: {e}]\n\nPlease ensure LM Studio is running and the server is started at {base_url}.").toList

/-- Trace of one `translate_streaming` run: the `(output, progress)` pairs
yielded in order, and the chunk numbers for which a service request was
issued, in order. -/
structure StreamRun where
  yields : List (Text × String)
  requested : List Nat

/-- Chunk loop of `translate_streaming`: for each chunk in order, build the
prompt, request a stream, yield a view per fragment; on a raised error,
yield the accumulated output with the inline error marker and the error
label and stop (the generator ends inside `except`); on clean stream end,
append the chunk translation plus `"\n\n"`, yield the completed view, and
continue with the next chunk. -/
def streamGo (service : StreamService) (source_lang target_lang base_url : String) (total : Nat) :
    List Text → Nat → Text → StreamRun
  | [], _, _ => ⟨[], []⟩
  | chunk :: rest, i, full_translation =>
    let full_prompt := create_formatted_prompt source_lang target_lang chunk
    let outcome := service i full_prompt
    let views := fragYields full_translation (processingLabel i total) outcome.frags []
    match outcome.err with
    | some e =>
        ⟨views ++ [(full_translation ++ errorMarker i e base_url, errorLabel i)], [i]⟩
    | none =>
        let full2 := full_translation ++ accumFrags outcome.frags ++ chunkSep
        let r := streamGo service source_lang target_lang base_url total rest (i + 1) full2
        ⟨views ++ (full2, completedLabel i total) :: r.yields, i :: r.requested⟩

/-- Function `translate_streaming` from `app.py` (UI wiring aside): empty
input yields `("", "")` with no service call; otherwise the text is split
into chunks and the chunk loop runs from an empty accumulator. -/
def translate_streaming (service : StreamService) (source_lang target_lang base_url : String)
    (text : Text) (chunk_size : Nat) : StreamRun :=
  if text = [] then ⟨[([], "")], []⟩
  else
    let chunks := split_text_into_chunks text chunk_size
    streamGo service source_lang target_lang base_url chunks.length chunks 0 []

/-- Closed form of the streaming accumulator over a list of successfully
completed chunks starting at chunk number `i`: each chunk contributes its
full translation followed by the `"\n\n"` separator. -/
def doneAccum (service : StreamService) (source_lang target_lang : String) :
    Nat → List Text → Text
  | _, [] => []
  | i, chunk :: rest =>
      accumFrags (service i (create_formatted_prompt source_lang target_lang chunk)).frags
        ++ chunkSep ++ doneAccum service source_lang target_lang (i + 1) rest

/-- Blocking completion service as an oracle over (chunk number, prompt):
either the response content (`none` models a null `message.content`, turned
into `""` by the code) or a raised error. -/
abbrev BlockingService := Nat → Text → Except String (Option Text)

/-- Inline error marker appended by `translate_file_process` when chunk `i`
(0-based; printed 1-based) fails. -/
def batchErrorMarker (i : Nat) (e : String) : Text :=
  (s!"\n[Error translating chunk {i+1}: {e}]\n").toList

/-- Preview message `"Starting translation of {total} chunks..."`. -/
def startingLabel (total : Nat) : String := s!"Starting translation of {total} chunks..."

/-- Result of the chunk loop of `translate_file_process`: previews yielded
in order, chunk numbers requested in order, and the final accumulator. -/
structure BatchLoopResult where
  yields : List Text
  requested : List Nat
  final : Text

/-- Chunk loop of `translate_file_process`: for each chunk in order, build
the prompt and make a blocking call; on success append the content (or `""`
for null content) plus `"\n\n"`; on a raised error append the inline error
marker for that chunk only; in both cases yield the accumulated preview and
continue with the next chunk. -/
def batchGo (service : BlockingService) (source_lang target_lang : String) :
    List Text → Nat → Text → BatchLoopResult
  | [], _, full_translation => ⟨[], [], full_translation⟩
  | chunk :: rest, i, full_translation =>
    let full_prompt := create_formatted_prompt source_lang target_lang chunk
    match service i full_prompt with
    | .ok content =>
        let full2 := full_translation ++ content.getD [] ++ chunkSep
        let r := batchGo service source_lang target_lang rest (i + 1) full2
        ⟨full2 :: r.yields, i :: r.requested, r.final⟩
    | .error e =>
        let full2 := full_translation ++ batchErrorMarker i e
        let r := batchGo service source_lang target_lang rest (i + 1) full2
        ⟨full2 :: r.yields, i :: r.requested, r.final⟩

/-- Trace of one `translate_file_process` run (file I/O reduced to values):
the previews yielded in order (the starting message, one preview per chunk,
then the final accumulated text), the chunk numbers requested in order, and
`written`, the content written unconditionally to the `translated_` output
file after all chunks were attempted. -/
structure BatchRun where
  yields : List Text
  requested : List Nat
  written : Text

/-- Function `translate_file_process` from `app.py`, from the point where
the file content has been read (reading and path handling are I/O wiring):
split into chunks, yield the starting message, run the chunk loop, then
write the accumulated text to the output file and yield it. -/
def translate_file_process (service : BlockingService) (source_lang target_lang : String)
    (text : Text) (chunk_size : Nat) : BatchRun :=
  let chunks := split_text_into_chunks text chunk_size
  let r := batchGo service source_lang target_lang chunks 0 []
  ⟨(startingLabel chunks.length).toList :: r.yields ++ [r.final], r.requested, r.final⟩

/-- Closed form of the batch accumulator over a list of chunks starting at
chunk number `i`: a successful chunk contributes its translation followed by
`"\n\n"`, a failed chunk contributes its inline error marker. -/
def batchAccum (service : BlockingService) (source_lang target_lang : String) :
    Nat → List Text → Text
  | _, [] => []
  | i, chunk :: rest =>
      (match service i (create_formatted_prompt source_lang target_lang chunk) with
       | .ok content => content.getD [] ++ chunkSep
       | .error e => batchErrorMarker i e)
        ++ batchAccum service source_lang target_lang (i + 1) rest

theorem startsWith_eq : ∀ (p s : Text), startsWith s p = true → p ++ s.drop p.length = s := by
  intro p
  induction p with
  | nil => intro s _; simp
  | cons d p ih =>
    intro s h
    cases s with
    | nil => simp [startsWith] at h
    | cons c s' =>
      simp only [startsWith, Bool.and_eq_true, beq_iff_eq] at h
      obtain ⟨h1, h2⟩ := h
      have h3 := ih s' h2
      simp only [List.length_cons, List.drop_succ_cons, List.cons_append, h1]
      rw [h3]

theorem splitFirst_eq :
    ∀ (sep s pre post : Text), splitFirst sep s = some (pre, post) → pre ++ sep ++ post = s := by
  intro sep s
  induction s with
  | nil => intro pre post h; simp [splitFirst] at h
  | cons c s' ih =>
    intro pre post h
    by_cases hs : startsWith (c :: s') sep
    · rw [splitFirst, if_pos hs] at h
      simp only [Option.some.injEq, Prod.mk.injEq] at h
      obtain ⟨h1, h2⟩ := h
      subst h1
      subst h2
      simpa using startsWith_eq sep (c :: s') hs
    · rw [splitFirst, if_neg hs] at h
      cases hsp : splitFirst sep s' with
      | none => rw [hsp] at h; simp at h
      | some pp =>
        obtain ⟨pre', post'⟩ := pp
        rw [hsp] at h
        simp only [Option.some.injEq, Prod.mk.injEq] at h
        obtain ⟨h1, h2⟩ := h
        subst h1; subst h2
        have := ih pre' post' hsp
        rw [List.cons_append, List.cons_append, this]

theorem splitOnFuel_ne_nil (sep : Text) (fuel : Nat) (s : Text) : splitOnFuel sep fuel s ≠ [] := by
  cases fuel with
  | zero => simp [splitOnFuel]
  | succ fuel =>
    rw [splitOnFuel]
    cases splitFirst sep s <;> simp

theorem reattachSep_cons (sep p : Text) (l : List Text) (h : l ≠ []) :
    reattachSep sep (p :: l) = (p ++ sep) :: reattachSep sep l := by
  cases l with
  | nil => exact absurd rfl h
  | cons q rest => rfl

theorem reattach_splitOnFuel_flatten (sep : Text) :
    ∀ (fuel : Nat) (s : Text), (reattachSep sep (splitOnFuel sep fuel s)).flatten = s := by
  intro fuel
  induction fuel with
  | zero => intro s; simp [splitOnFuel, reattachSep]
  | succ fuel ih =>
    intro s
    rw [splitOnFuel]
    cases h : splitFirst sep s with
    | none => simp [reattachSep]
    | some pp =>
      obtain ⟨pre, post⟩ := pp
      rw [reattachSep_cons sep pre _ (splitOnFuel_ne_nil sep fuel post)]
      rw [List.flatten_cons, ih post]
      exact splitFirst_eq sep s pre post h

theorem flatten_flatten_map (f : Text → List Text) (h : ∀ seg, (f seg).flatten = seg) :
    ∀ l : List Text, (List.flatten (l.map f)).flatten = l.flatten := by
  intro l
  induction l with
  | nil => rfl
  | cons a t ih => simp [List.map_cons, List.flatten_cons, List.flatten_append, ih, h]

theorem decomposeSeg_flatten (M : Nat) (sep seg : Text) :
    (if seg.length ≤ M then [seg]
     else
       let parts := splitOn sep seg
       if parts.length = 1 then [seg] else reattachSep sep parts).flatten = seg := by
  by_cases h1 : seg.length ≤ M
  · simp [h1]
  · simp only [h1, if_false, splitOn]
    by_cases h2 : (splitOnFuel sep seg.length seg).length = 1
    · simp [h2]
    · simp [h2, reattach_splitOnFuel_flatten]

theorem decomposeStep_flatten (M : Nat) (sep : Text) (segments : List Text) :
    (decomposeStep M sep segments).flatten = segments.flatten :=
  flatten_flatten_map _ (fun seg => decomposeSeg_flatten M sep seg) segments

theorem foldl_decomposeStep_flatten (M : Nat) :
    ∀ (seps : List Text) (segs : List Text),
      ((seps.foldl (fun l sep => decomposeStep M sep l) segs)).flatten = segs.flatten := by
  intro seps
  induction seps with
  | nil => intro segs; rfl
  | cons sep rest ih =>
    intro segs
    rw [List.foldl_cons, ih, decomposeStep_flatten]

theorem decompose_flatten (M : Nat) (text : Text) : (decompose M text).flatten = text := by
  rw [decompose, foldl_decomposeStep_flatten]
  simp

theorem hardSplit_flatten (M : Nat) :
    ∀ (fuel : Nat) (seg : Text), (hardSplit M fuel seg).flatten = seg := by
  intro fuel
  induction fuel with
  | zero => intro seg; cases seg <;> simp [hardSplit]
  | succ fuel ih =>
    intro seg
    cases seg with
    | nil => simp [hardSplit]
    | cons c s =>
      rw [hardSplit, List.flatten_cons, ih]
      exact List.take_append_drop M (c :: s)

theorem hardSplitPass_flatten (M : Nat) (segments : List Text) :
    (hardSplitPass M segments).flatten = segments.flatten :=
  flatten_flatten_map _
    (fun seg => by
      by_cases h : M < seg.length
      · simp [h, hardSplit_flatten]
      · simp [h]) segments

theorem mergeAtoms_flatten (M : Nat) :
    ∀ (atoms : List Text) (cur : Text), (mergeAtoms M atoms cur).flatten = cur ++ atoms.flatten := by
  intro atoms
  induction atoms with
  | nil => intro cur; by_cases h : cur = [] <;> simp [mergeAtoms, h]
  | cons atom rest ih =>
    intro cur
    rw [mergeAtoms]
    by_cases h1 : cur.length + atom.length ≤ M
    · simp [h1, ih]
    · by_cases h2 : cur = []
      · simp [h1, h2, ih]
      · simp [h1, h2, ih]

/-- C1: for every text `T` and chunk-size limit `M ≥ 1`, concatenating, in
order, all chunks returned by `split_text_into_chunks T M` yields exactly
`T` — no characters lost, none added, separators preserved. -/
theorem split_text_into_chunks_lossless (text : Text) (M : Nat) (h : 1 ≤ M) :
    (split_text_into_chunks text M).flatten = text := by
  by_cases ht : text = []
  · subst ht; rfl
  · rw [split_text_into_chunks, if_neg ht, mergeAtoms_flatten, hardSplitPass_flatten,
       decompose_flatten]
    rfl

theorem split_text_into_chunks_lossless_witness :
    1 ≤ 3 ∧ (split_text_into_chunks ("a\n\nbb c. dd").toList 3).flatten = ("a\n\nbb c. dd").toList :=
  ⟨by decide, split_text_into_chunks_lossless _ 3 (by decide)⟩

theorem hardSplit_mem_length (M : Nat) (hM : 1 ≤ M) :
    ∀ (fuel : Nat) (seg : Text), seg.length ≤ fuel →
      ∀ c ∈ hardSplit M fuel seg, c.length ≤ M := by
  intro fuel
  induction fuel with
  | zero =>
    intro seg hle c hc
    have hseg : seg = [] := List.eq_nil_of_length_eq_zero (Nat.le_zero.mp hle)
    subst hseg
    simp [hardSplit] at hc
  | succ fuel ih =>
    intro seg hle c hc
    cases seg with
    | nil => simp [hardSplit] at hc
    | cons a s =>
      rw [hardSplit] at hc
      rcases List.mem_cons.mp hc with h | h
      · subst h
        simp only [List.length_take]
        omega
      · refine ih _ ?_ c h
        simp only [List.length_drop, List.length_cons] at *
        omega

theorem hardSplitPass_mem_length (M : Nat) (hM : 1 ≤ M) :
    ∀ segs, ∀ c ∈ hardSplitPass M segs, c.length ≤ M := by
  intro segs
  induction segs with
  | nil => intro c hc; simp [hardSplitPass] at hc
  | cons seg rest ih =>
    intro c hc
    rw [hardSplitPass, List.map_cons, List.flatten_cons] at hc
    rcases List.mem_append.mp hc with h | h
    · by_cases hlen : M < seg.length
      · rw [if_pos hlen] at h
        exact hardSplit_mem_length M hM seg.length seg le_rfl c h
      · rw [if_neg hlen] at h
        simp at h
        subst h
        omega
    · exact ih c h

theorem mergeAtoms_mem_length (M : Nat) :
    ∀ (atoms : List Text) (cur : Text), cur.length ≤ M → (∀ a ∈ atoms, a.length ≤ M) →
      ∀ c ∈ mergeAtoms M atoms cur, c.length ≤ M := by
  intro atoms
  induction atoms with
  | nil =>
    intro cur hcur _ c hc
    by_cases h : cur = [] <;> simp [mergeAtoms, h] at hc
    subst hc; exact hcur
  | cons atom rest ih =>
    intro cur hcur hall c hc
    have hatom : atom.length ≤ M := hall atom (List.mem_cons_self atom rest)
    have htail : ∀ a ∈ rest, a.length ≤ M := fun a ha => hall a (List.mem_cons_of_mem _ ha)
    rw [mergeAtoms] at hc
    by_cases h1 : cur.length + atom.length ≤ M
    · rw [if_pos h1] at hc
      exact ih (cur ++ atom) (by simp; omega) htail c hc
    · rw [if_neg h1] at hc
      by_cases h2 : cur = []
      · rw [if_pos h2] at hc
        exact ih atom hatom htail c hc
      · rw [if_neg h2] at hc
        rcases List.mem_cons.mp hc with h | h
        · subst h; exact hcur
        · exact ih atom hatom htail c h

/-- C2: for every text `T` and limit `M ≥ 1`, every chunk returned by
`split_text_into_chunks T M` has length at most `M`, including when `T`
contains a separator-free run longer than `M` (the hard character-slice pass
bounds every atom before merging). -/
theorem split_text_into_chunks_bounded (text : Text) (M : Nat) (h : 1 ≤ M) :
    ∀ c ∈ split_text_into_chunks text M, c.length ≤ M := by
  by_cases ht : text = []
  · subst ht; intro c hc; simp [split_text_into_chunks] at hc
  · rw [split_text_into_chunks, if_neg ht]
    exact mergeAtoms_mem_length M _ [] (by simp) (hardSplitPass_mem_length M h _)

theorem split_text_into_chunks_bounded_witness :
    1 ≤ 2 ∧ ∀ c ∈ split_text_into_chunks ("aaaaa").toList 2, c.length ≤ 2 :=
  ⟨by decide, split_text_into_chunks_bounded _ 2 (by decide)⟩

theorem mergeAtoms_head_length (M : Nat) :
    ∀ (atoms : List Text) (cur : Text), cur ≠ [] →
      ∃ c cs, mergeAtoms M atoms cur = c :: cs ∧ cur.length ≤ c.length := by
  intro atoms
  induction atoms with
  | nil =>
    intro cur h
    exact ⟨cur, [], by simp [mergeAtoms, h], le_rfl⟩
  | cons atom rest ih =>
    intro cur h
    by_cases h1 : cur.length + atom.length ≤ M
    · obtain ⟨c, cs, heq, hle⟩ := ih (cur ++ atom) (by simp [h])
      refine ⟨c, cs, ?_, ?_⟩
      · rw [mergeAtoms, if_pos h1, heq]
      · calc cur.length ≤ (cur ++ atom).length := by simp
          _ ≤ c.length := hle
    · exact ⟨cur, mergeAtoms M rest atom, by rw [mergeAtoms, if_neg h1, if_neg h], le_rfl⟩

theorem mergeAtoms_chain (M : Nat) :
    ∀ (atoms : List Text) (cur : Text), cur.length ≤ M → (∀ a ∈ atoms, a.length ≤ M) →
      List.Chain' (fun a b => M < a.length + b.length) (mergeAtoms M atoms cur) := by
  intro atoms
  induction atoms with
  | nil =>
    intro cur _ _
    by_cases h : cur = [] <;> simp [mergeAtoms, h]
  | cons atom rest ih =>
    intro cur hcur hall
    have hatom : atom.length ≤ M := hall atom (List.mem_cons_self atom rest)
    have htail : ∀ a ∈ rest, a.length ≤ M := fun a ha => hall a (List.mem_cons_of_mem _ ha)
    rw [mergeAtoms]
    by_cases h1 : cur.length + atom.length ≤ M
    · rw [if_pos h1]
      exact ih (cur ++ atom) (by simp; omega) htail
    · rw [if_neg h1]
      have h2 : cur ≠ [] := by
        intro hc
        subst hc
        simp at h1
        omega
      rw [if_neg h2]
      have hatomne : atom ≠ [] := by
        intro ha
        subst ha
        simp at h1
        omega
      obtain ⟨c, cs, heq, hle⟩ := mergeAtoms_head_length M rest atom hatomne
      rw [heq]
      rw [List.chain'_cons]
      constructor
      · omega
      · rw [← heq]
        exact ih atom hatom htail

/-- C6: for every text `T` and limit `M ≥ 1`, no two adjacent chunks
returned by `split_text_into_chunks T M` could have been merged without
exceeding `M`: every consecutive pair has combined length greater than `M`. -/
theorem split_adjacent_chunks_unmergeable (text : Text) (M : Nat) (h : 1 ≤ M) :
    List.Chain' (fun a b => M < a.length + b.length) (split_text_into_chunks text M) := by
  by_cases ht : text = []
  · subst ht; simp [split_text_into_chunks]
  · rw [split_text_into_chunks, if_neg ht]
    exact mergeAtoms_chain M _ [] (by simp) (hardSplitPass_mem_length M h _)

theorem split_adjacent_chunks_unmergeable_witness :
    1 ≤ 3 ∧ List.Chain' (fun a b => 3 < a.length + b.length)
      (split_text_into_chunks ("aa bb cc").toList 3) :=
  ⟨by decide, split_adjacent_chunks_unmergeable _ 3 (by decide)⟩

theorem decomposeStep_small (M : Nat) (sep t : Text) (h : t.length ≤ M) :
    decomposeStep M sep [t] = [t] := by
  simp [decomposeStep, h]

theorem foldl_decomposeStep_small (M : Nat) (t : Text) (h : t.length ≤ M) :
    ∀ seps : List Text, (seps.foldl (fun l sep => decomposeStep M sep l) [t]) = [t] := by
  intro seps
  induction seps with
  | nil => rfl
  | cons sep rest ih =>
    rw [List.foldl_cons, decomposeStep_small M sep t h]
    exact ih

/-- C7 (amended: the input must be non-empty, since the code returns an
empty chunk list for empty text): for every non-empty text `T` and limit `M`
with `len T ≤ M`, `split_text_into_chunks T M` returns exactly one chunk,
and that chunk equals `T`. -/
theorem split_small_input_single_chunk (text : Text) (M : Nat)
    (h1 : text ≠ []) (h2 : text.length ≤ M) :
    split_text_into_chunks text M = [text] := by
  rw [split_text_into_chunks, if_neg h1, decompose, foldl_decomposeStep_small M text h2]
  have hpass : hardSplitPass M [text] = [text] := by
    simp [hardSplitPass, Nat.not_lt.mpr h2]
  rw [hpass, mergeAtoms, if_pos (by simpa using h2), mergeAtoms]
  simp [h1]

theorem split_small_input_single_chunk_witness :
    ("hi").toList ≠ [] ∧ ("hi").toList.length ≤ 10
      ∧ split_text_into_chunks ("hi").toList 10 = [("hi").toList] :=
  ⟨by decide, by decide, split_small_input_single_chunk _ 10 (by decide) (by decide)⟩

/-- C7 counterexample: the claim quantifies over every text with
`len T ≤ M`, but at the empty text with `M = 5` the code returns the empty
chunk list, not one chunk equal to the text. -/
theorem split_small_input_empty_cex :
    (List.length ([] : Text) ≤ 5) ∧ split_text_into_chunks [] 5 ≠ [([] : Text)] := by
  constructor
  · decide
  · decide

/-- C8: for every limit `M`, splitting the empty text returns the empty
sequence, and the streaming driver on empty input yields the single empty
result `("", "")` without issuing any service call. -/
theorem empty_input_no_request (M : Nat) (service : StreamService) (sl tl url : String) :
    split_text_into_chunks [] M = []
    ∧ (translate_streaming service sl tl url [] M).yields = [([], "")]
    ∧ (translate_streaming service sl tl url [] M).requested = [] := by
  exact ⟨rfl, rfl, rfl⟩

/-- C9: for every source language, target language and chunk text, the
prompt built by `create_formatted_prompt` is the template head of the branch
selected by the source language — the language-identification head for the
"Auto Detect" sentinel, the professional-translator head otherwise —
followed by the chunk text verbatim: the chunk is embedded literally at the
end, unmodified and unescaped, and the function is a pure function of its
three arguments. -/
theorem create_formatted_prompt_shape (source_lang target_lang : String) (text : Text) :
    create_formatted_prompt source_lang target_lang text
      = (if source_lang = "Auto Detect" then autoDetectHead target_lang
         else translatorHead source_lang target_lang) ++ text := by
  by_cases h : source_lang = "Auto Detect" <;>
    simp [create_formatted_prompt, autoDetectHead, translatorHead, h]

theorem streamGo_nil (service : StreamService) (sl tl url : String) (total i : Nat) (full : Text) :
    streamGo service sl tl url total [] i full = ⟨[], []⟩ := rfl

theorem streamGo_cons_err (service : StreamService) (sl tl url : String) (total : Nat)
    (chunk : Text) (rest : List Text) (i : Nat) (full : Text) (e : String)
    (h : (service i (create_formatted_prompt sl tl chunk)).err = some e) :
    streamGo service sl tl url total (chunk :: rest) i full =
      ⟨fragYields full (processingLabel i total)
          (service i (create_formatted_prompt sl tl chunk)).frags []
        ++ [(full ++ errorMarker i e url, errorLabel i)], [i]⟩ := by
  rw [streamGo]
  simp only [h]

theorem streamGo_cons_ok (service : StreamService) (sl tl url : String) (total : Nat)
    (chunk : Text) (rest : List Text) (i : Nat) (full : Text)
    (h : (service i (create_formatted_prompt sl tl chunk)).err = none) :
    streamGo service sl tl url total (chunk :: rest) i full =
      ⟨fragYields full (processingLabel i total)
          (service i (create_formatted_prompt sl tl chunk)).frags []
        ++ (full ++ accumFrags (service i (create_formatted_prompt sl tl chunk)).frags ++ chunkSep,
            completedLabel i total)
          :: (streamGo service sl tl url total rest (i + 1)
                (full ++ accumFrags (service i (create_formatted_prompt sl tl chunk)).frags
                  ++ chunkSep)).yields,
       i :: (streamGo service sl tl url total rest (i + 1)
                (full ++ accumFrags (service i (create_formatted_prompt sl tl chunk)).frags
                  ++ chunkSep)).requested⟩ := by
  rw [streamGo]
  simp only [h]

theorem range_map_succ_shift (i0 n : Nat) :
    (List.range (n + 1)).map (fun j => i0 + j)
      = i0 :: (List.range n).map (fun j => i0 + 1 + j) := by
  rw [List.range_succ_eq_map, List.map_cons, List.map_map]
  congr 1
  apply List.map_congr_left
  intro j _
  simp [Function.comp]
  omega

theorem streamGo_fail (service : StreamService) (sl tl url : String) (total : Nat) :
    ∀ (chunks : List Text) (k i0 : Nat) (full : Text) (e : String),
      k < chunks.length →
      (∀ j, j < k →
        (service (i0 + j) (create_formatted_prompt sl tl (chunks.getD j []))).err = none) →
      (service (i0 + k) (create_formatted_prompt sl tl (chunks.getD k []))).err = some e →
      (∃ ys,
        (streamGo service sl tl url total chunks i0 full).yields
          = ys ++ fragYields (full ++ doneAccum service sl tl i0 (chunks.take k))
                   (processingLabel (i0 + k) total)
                   ((service (i0 + k) (create_formatted_prompt sl tl (chunks.getD k []))).frags) []
              ++ [(full ++ doneAccum service sl tl i0 (chunks.take k)
                     ++ errorMarker (i0 + k) e url,
                   errorLabel (i0 + k))])
      ∧ (streamGo service sl tl url total chunks i0 full).requested
          = (List.range (k + 1)).map (fun j => i0 + j) := by
  intro chunks
  induction chunks with
  | nil =>
    intro k i0 full e hk
    simp at hk
  | cons chunk rest ih =>
    intro k i0 full e hk hok herr
    cases k with
    | zero =>
      have h0 : (service (i0 + 0) (create_formatted_prompt sl tl chunk)).err = some e := by
        simpa using herr
      rw [Nat.add_zero] at h0
      rw [streamGo_cons_err service sl tl url total chunk rest i0 full e h0]
      constructor
      · refine ⟨[], ?_⟩
        simp [doneAccum]
      · rw [range_map_succ_shift i0 0]
        simp
    | succ k' =>
      have h0 : (service i0 (create_formatted_prompt sl tl chunk)).err = none := by
        simpa using hok 0 (Nat.succ_pos k')
      rw [streamGo_cons_ok service sl tl url total chunk rest i0 full h0]
      have hok' : ∀ j, j < k' →
          (service (i0 + 1 + j)
            (create_formatted_prompt sl tl (rest.getD j []))).err = none := by
        intro j hj
        have h := hok (j + 1) (Nat.succ_lt_succ hj)
        rw [List.getD_cons_succ] at h
        rwa [show i0 + 1 + j = i0 + (j + 1) from by omega]
      have herr' : (service (i0 + 1 + k')
          (create_formatted_prompt sl tl (rest.getD k' []))).err = some e := by
        have h := herr
        rw [List.getD_cons_succ] at h
        rwa [show i0 + 1 + k' = i0 + (k' + 1) from by omega]
      obtain ⟨⟨ys, hys⟩, hreq⟩ :=
        ih k' (i0 + 1)
          (full ++ accumFrags (service i0 (create_formatted_prompt sl tl chunk)).frags ++ chunkSep)
          e (by simpa using Nat.lt_of_succ_lt_succ hk) hok' herr'
      have hidx : i0 + (k' + 1) = i0 + 1 + k' := by omega
      have hgetD : (chunk :: rest).getD (k' + 1) ([] : Text) = rest.getD k' [] :=
        List.getD_cons_succ ..
      have hacc : full ++ doneAccum service sl tl i0 ((chunk :: rest).take (k' + 1))
          = (full ++ accumFrags (service i0 (create_formatted_prompt sl tl chunk)).frags
              ++ chunkSep) ++ doneAccum service sl tl (i0 + 1) (rest.take k') := by
        rw [List.take_succ_cons, doneAccum]
        simp [List.append_assoc]
      constructor
      · refine ⟨fragYields full (processingLabel i0 total)
            (service i0 (create_formatted_prompt sl tl chunk)).frags []
          ++ (full ++ accumFrags (service i0 (create_formatted_prompt sl tl chunk)).frags
                ++ chunkSep, completedLabel i0 total) :: ys, ?_⟩
        rw [hidx, hgetD, hacc]
        rw [hys]
        simp [List.append_assoc]
      · rw [range_map_succ_shift i0 (k' + 1)]
        exact congrArg (List.cons i0) hreq

/-- C3: in streaming mode, when the service call for chunk `i` fails (all
earlier chunks having succeeded), the driver's final yield is the
accumulated output of the completed earlier chunks with the inline error
marker naming chunk `i` and the failure reason, paired with the error
progress label naming chunk `i`, and the job terminates: the requested
chunks are exactly `0..i`, so no chunk after `i` is ever requested. -/
theorem translate_streaming_fail_fast (service : StreamService) (sl tl url : String)
    (text : Text) (M : Nat) (i : Nat) (e : String)
    (htext : text ≠ [])
    (hi : i < (split_text_into_chunks text M).length)
    (hok : ∀ j, j < i → (service j (create_formatted_prompt sl tl
        ((split_text_into_chunks text M).getD j []))).err = none)
    (herr : (service i (create_formatted_prompt sl tl
        ((split_text_into_chunks text M).getD i []))).err = some e) :
    (translate_streaming service sl tl url text M).requested = List.range (i + 1)
    ∧ (translate_streaming service sl tl url text M).yields.getLast?
        = some (doneAccum service sl tl 0 ((split_text_into_chunks text M).take i)
                  ++ errorMarker i e url,
                errorLabel i) := by
  have hrun : translate_streaming service sl tl url text M
      = streamGo service sl tl url (split_text_into_chunks text M).length
          (split_text_into_chunks text M) 0 [] := by
    rw [translate_streaming, if_neg htext]
  have hok0 : ∀ j, j < i → (service (0 + j) (create_formatted_prompt sl tl
      ((split_text_into_chunks text M).getD j []))).err = none := by
    intro j hj
    rw [Nat.zero_add]
    exact hok j hj
  have herr0 : (service (0 + i) (create_formatted_prompt sl tl
      ((split_text_into_chunks text M).getD i []))).err = some e := by
    rw [Nat.zero_add]
    exact herr
  obtain ⟨⟨ys, hys⟩, hreq⟩ :=
    streamGo_fail service sl tl url (split_text_into_chunks text M).length
      (split_text_into_chunks text M) i 0 [] e hi hok0 herr0
  constructor
  · rw [hrun, hreq]
    simp
  · rw [hrun, hys, List.getLast?_concat]
    simp

theorem translate_streaming_fail_fast_witness :
    (("aa bb cc").toList ≠ [])
    ∧ (0 < (split_text_into_chunks ("aa bb cc").toList 3).length)
    ∧ (translate_streaming
        (fun j _ => if j = 0 then ⟨[], some "boom"⟩ else ⟨[some ("ok").toList], none⟩)
        "English" "Korean" "http://localhost:1234/v1" ("aa bb cc").toList 3).requested
        = List.range 1
    ∧ (translate_streaming
        (fun j _ => if j = 0 then ⟨[], some "boom"⟩ else ⟨[some ("ok").toList], none⟩)
        "English" "Korean" "http://localhost:1234/v1" ("aa bb cc").toList 3).yields.getLast?
        = some (doneAccum
            (fun j _ => if j = 0 then ⟨[], some "boom"⟩ else ⟨[some ("ok").toList], none⟩)
            "English" "Korean" 0 ((split_text_into_chunks ("aa bb cc").toList 3).take 0)
              ++ errorMarker 0 "boom" "http://localhost:1234/v1",
            errorLabel 0) := by
  refine ⟨by decide, by decide, ?_⟩
  exact translate_streaming_fail_fast
    (fun j _ => if j = 0 then ⟨[], some "boom"⟩ else ⟨[some ("ok").toList], none⟩)
    "English" "Korean" "http://localhost:1234/v1" ("aa bb cc").toList 3 0 "boom"
    (by decide) (by decide) (fun j hj => absurd hj (Nat.not_lt_zero j)) rfl

/-- C10: in streaming mode, when chunk `i`'s stream fails after a fragment
`f` has already been received (all earlier chunks having succeeded), the
view containing the completed earlier chunks plus the partial fragment was
emitted earlier, but the final emitted output is exactly the completed
earlier chunks followed by the inline error marker: the partial fragments of
the failing chunk are absent from the final output. -/
theorem streaming_partial_fragments_dropped (service : StreamService) (sl tl url : String)
    (text : Text) (M i : Nat) (f : Text) (fs : List (Option Text)) (e : String)
    (htext : text ≠ [])
    (hi : i < (split_text_into_chunks text M).length)
    (hok : ∀ j, j < i → (service j (create_formatted_prompt sl tl
        ((split_text_into_chunks text M).getD j []))).err = none)
    (hfrags : (service i (create_formatted_prompt sl tl
        ((split_text_into_chunks text M).getD i []))).frags = some f :: fs)
    (herr : (service i (create_formatted_prompt sl tl
        ((split_text_into_chunks text M).getD i []))).err = some e) :
    ((doneAccum service sl tl 0 ((split_text_into_chunks text M).take i) ++ f,
        processingLabel i (split_text_into_chunks text M).length)
      ∈ (translate_streaming service sl tl url text M).yields)
    ∧ (translate_streaming service sl tl url text M).yields.getLast?
        = some (doneAccum service sl tl 0 ((split_text_into_chunks text M).take i)
                  ++ errorMarker i e url,
                errorLabel i) := by
  have hrun : translate_streaming service sl tl url text M
      = streamGo service sl tl url (split_text_into_chunks text M).length
          (split_text_into_chunks text M) 0 [] := by
    rw [translate_streaming, if_neg htext]
  have hok0 : ∀ j, j < i → (service (0 + j) (create_formatted_prompt sl tl
      ((split_text_into_chunks text M).getD j []))).err = none := by
    intro j hj
    rw [Nat.zero_add]
    exact hok j hj
  have herr0 : (service (0 + i) (create_formatted_prompt sl tl
      ((split_text_into_chunks text M).getD i []))).err = some e := by
    rw [Nat.zero_add]
    exact herr
  obtain ⟨⟨ys, hys⟩, hreq⟩ :=
    streamGo_fail service sl tl url (split_text_into_chunks text M).length
      (split_text_into_chunks text M) i 0 [] e hi hok0 herr0
  simp only [Nat.zero_add, List.nil_append] at hys
  rw [hfrags] at hys
  rw [fragYields] at hys
  constructor
  · rw [hrun, hys]
    refine List.mem_append.mpr (Or.inl (List.mem_append.mpr (Or.inr ?_)))
    simp
  · rw [hrun, hys, List.getLast?_concat]

theorem streaming_partial_fragments_dropped_witness :
    (("aa bb").toList ≠ [])
    ∧ (1 < (split_text_into_chunks ("aa bb").toList 3).length)
    ∧ ((doneAccum
          (fun j _ => if j = 0 then ⟨[some ("T1").toList], none⟩
                      else ⟨[some ("PART").toList], some "broke"⟩)
          "English" "Korean" 0 ((split_text_into_chunks ("aa bb").toList 3).take 1)
            ++ ("PART").toList,
        processingLabel 1 (split_text_into_chunks ("aa bb").toList 3).length)
      ∈ (translate_streaming
          (fun j _ => if j = 0 then ⟨[some ("T1").toList], none⟩
                      else ⟨[some ("PART").toList], some "broke"⟩)
          "English" "Korean" "u" ("aa bb").toList 3).yields)
    ∧ (translate_streaming
          (fun j _ => if j = 0 then ⟨[some ("T1").toList], none⟩
                      else ⟨[some ("PART").toList], some "broke"⟩)
          "English" "Korean" "u" ("aa bb").toList 3).yields.getLast?
        = some (doneAccum
            (fun j _ => if j = 0 then ⟨[some ("T1").toList], none⟩
                        else ⟨[some ("PART").toList], some "broke"⟩)
            "English" "Korean" 0 ((split_text_into_chunks ("aa bb").toList 3).take 1)
              ++ errorMarker 1 "broke" "u",
            errorLabel 1) := by
  refine ⟨by decide, by decide, ?_, ?_⟩ <;>
  · have h := streaming_partial_fragments_dropped
      (fun j _ => if j = 0 then ⟨[some ("T1").toList], none⟩
                  else ⟨[some ("PART").toList], some "broke"⟩)
      "English" "Korean" "u" ("aa bb").toList 3 1 ("PART").toList [] "broke"
      (by decide) (by decide)
      (fun j hj => by
        have hj0 : j = 0 := Nat.lt_one_iff.mp hj
        subst hj0
        rfl)
      rfl rfl
    first
    | exact h.1
    | exact h.2

theorem batchAccum_cons (service : BlockingService) (sl tl : String) (i : Nat)
    (chunk : Text) (rest : List Text) :
    batchAccum service sl tl i (chunk :: rest)
      = (match service i (create_formatted_prompt sl tl chunk) with
         | .ok content => content.getD [] ++ chunkSep
         | .error e => batchErrorMarker i e)
        ++ batchAccum service sl tl (i + 1) rest := rfl

theorem batchGo_eq (service : BlockingService) (sl tl : String) :
    ∀ (chunks : List Text) (i0 : Nat) (full : Text),
      batchGo service sl tl chunks i0 full =
        ⟨(List.range chunks.length).map
            (fun m => full ++ batchAccum service sl tl i0 (chunks.take (m + 1))),
         (List.range chunks.length).map (fun j => i0 + j),
         full ++ batchAccum service sl tl i0 chunks⟩ := by
  intro chunks
  induction chunks with
  | nil =>
    intro i0 full
    simp [batchGo, batchAccum]
  | cons chunk rest ih =>
    intro i0 full
    cases hsv : service i0 (create_formatted_prompt sl tl chunk) with
    | ok content =>
      rw [batchGo]
      simp only [hsv]
      rw [ih]
      simp only [BatchLoopResult.mk.injEq]
      refine ⟨?_, ?_, ?_⟩
      · rw [List.length_cons, List.range_succ_eq_map, List.map_cons, List.map_map]
        congr 1
        · simp [batchAccum_cons, hsv, List.append_assoc, batchAccum]
        · apply List.map_congr_left
          intro m _
          simp [Function.comp, batchAccum_cons, hsv, List.take_succ_cons, List.append_assoc]
      · exact (range_map_succ_shift i0 rest.length).symm
      · simp [batchAccum_cons, hsv, List.append_assoc]
    | error e =>
      rw [batchGo]
      simp only [hsv]
      rw [ih]
      simp only [BatchLoopResult.mk.injEq]
      refine ⟨?_, ?_, ?_⟩
      · rw [List.length_cons, List.range_succ_eq_map, List.map_cons, List.map_map]
        congr 1
        · simp [batchAccum_cons, hsv, List.append_assoc, batchAccum]
        · apply List.map_congr_left
          intro m _
          simp [Function.comp, batchAccum_cons, hsv, List.take_succ_cons, List.append_assoc]
      · exact (range_map_succ_shift i0 rest.length).symm
      · simp [batchAccum_cons, hsv, List.append_assoc]

theorem translate_file_process_closed (service : BlockingService) (sl tl : String)
    (text : Text) (M : Nat) :
    translate_file_process service sl tl text M
      = ⟨(startingLabel (split_text_into_chunks text M).length).toList
           :: (List.range (split_text_into_chunks text M).length).map
                (fun m => batchAccum service sl tl 0 ((split_text_into_chunks text M).take (m + 1)))
           ++ [batchAccum service sl tl 0 (split_text_into_chunks text M)],
         List.range (split_text_into_chunks text M).length,
         batchAccum service sl tl 0 (split_text_into_chunks text M)⟩ := by
  simp [translate_file_process, batchGo_eq]

theorem batchAccum_append (service : BlockingService) (sl tl : String) :
    ∀ (l1 l2 : List Text) (i : Nat),
      batchAccum service sl tl i (l1 ++ l2)
        = batchAccum service sl tl i l1 ++ batchAccum service sl tl (i + l1.length) l2 := by
  intro l1
  induction l1 with
  | nil =>
    intro l2 i
    simp [batchAccum]
  | cons a t ih =>
    intro l2 i
    rw [List.cons_append, batchAccum_cons, ih, batchAccum_cons]
    have hlen : i + 1 + t.length = i + (a :: t).length := by
      rw [List.length_cons]
      omega
    rw [hlen, List.append_assoc]

/-- C4: in batch (file) mode, when the service call for chunk `i` fails, all
chunks are still attempted in order (the requested chunks are exactly
`0..N-1`), the output file is still written and its content is the full
accumulated translation — each successful chunk's translation followed by
the separator, and for the failed chunk its inline error marker only — so
the written content contains the error marker for chunk `i` between the
accumulated earlier and later chunks. -/
theorem translate_file_process_fail_soft (service : BlockingService) (sl tl : String)
    (text : Text) (M i : Nat) (e : String)
    (hi : i < (split_text_into_chunks text M).length)
    (herr : service i (create_formatted_prompt sl tl
        ((split_text_into_chunks text M).getD i [])) = Except.error e) :
    (translate_file_process service sl tl text M).requested
        = List.range (split_text_into_chunks text M).length
    ∧ (translate_file_process service sl tl text M).written
        = batchAccum service sl tl 0 (split_text_into_chunks text M)
    ∧ (translate_file_process service sl tl text M).written
        = batchAccum service sl tl 0 ((split_text_into_chunks text M).take i)
            ++ batchErrorMarker i e
            ++ batchAccum service sl tl (i + 1) ((split_text_into_chunks text M).drop (i + 1)) := by
  rw [translate_file_process_closed]
  refine ⟨rfl, rfl, ?_⟩
  have hsplit : (split_text_into_chunks text M).take i ++ (split_text_into_chunks text M).drop i
      = split_text_into_chunks text M := List.take_append_drop ..
  have hdrop : (split_text_into_chunks text M).drop i
      = (split_text_into_chunks text M).getD i []
          :: (split_text_into_chunks text M).drop (i + 1) := by
    rw [List.getD_eq_getElem _ _ hi]
    exact List.drop_eq_getElem_cons hi
  have hlen : (0 : Nat) + ((split_text_into_chunks text M).take i).length = i := by
    rw [List.length_take]
    omega
  calc batchAccum service sl tl 0 (split_text_into_chunks text M)
      = batchAccum service sl tl 0
          ((split_text_into_chunks text M).take i ++ (split_text_into_chunks text M).drop i) := by
        rw [hsplit]
    _ = batchAccum service sl tl 0 ((split_text_into_chunks text M).take i)
          ++ batchAccum service sl tl (0 + ((split_text_into_chunks text M).take i).length)
               ((split_text_into_chunks text M).drop i) := batchAccum_append ..
    _ = batchAccum service sl tl 0 ((split_text_into_chunks text M).take i)
          ++ batchErrorMarker i e
          ++ batchAccum service sl tl (i + 1) ((split_text_into_chunks text M).drop (i + 1)) := by
        rw [hlen, hdrop, batchAccum_cons, herr]
        rw [List.append_assoc]

theorem translate_file_process_fail_soft_witness :
    (1 < (split_text_into_chunks ("aa bb cc").toList 3).length)
    ∧ (translate_file_process
        (fun j _ => if j = 1 then Except.error "boom" else Except.ok (some ("T").toList))
        "English" "Korean" ("aa bb cc").toList 3).requested
        = List.range (split_text_into_chunks ("aa bb cc").toList 3).length
    ∧ (translate_file_process
        (fun j _ => if j = 1 then Except.error "boom" else Except.ok (some ("T").toList))
        "English" "Korean" ("aa bb cc").toList 3).written
        = ("T\n\n").toList ++ batchErrorMarker 1 "boom" ++ ("T\n\n").toList := by
  refine ⟨by decide, ?_, by decide⟩
  exact (translate_file_process_fail_soft
    (fun j _ => if j = 1 then Except.error "boom" else Except.ok (some ("T").toList))
    "English" "Korean" ("aa bb cc").toList 3 1 "boom" (by decide) rfl).1

theorem streamGo_mem_completed (service : StreamService) (sl tl url : String) (total : Nat) :
    ∀ (chunks : List Text) (k m i0 : Nat) (full : Text),
      k ≤ chunks.length →
      (∀ j, j < k →
        (service (i0 + j) (create_formatted_prompt sl tl (chunks.getD j []))).err = none) →
      m < k →
      (full ++ doneAccum service sl tl i0 (chunks.take (m + 1)), completedLabel (i0 + m) total)
        ∈ (streamGo service sl tl url total chunks i0 full).yields := by
  intro chunks
  induction chunks with
  | nil =>
    intro k m i0 full hk _ hm
    simp at hk
    omega
  | cons chunk rest ih =>
    intro k m i0 full hk hok hm
    have h0 : (service i0 (create_formatted_prompt sl tl chunk)).err = none := by
      simpa using hok 0 (by omega)
    rw [streamGo_cons_ok service sl tl url total chunk rest i0 full h0]
    cases m with
    | zero =>
      have hhead : full ++ doneAccum service sl tl i0 ((chunk :: rest).take 1)
          = full ++ accumFrags (service i0 (create_formatted_prompt sl tl chunk)).frags
              ++ chunkSep := by
        rw [List.take_succ_cons, List.take_zero, doneAccum]
        simp [doneAccum, List.append_assoc]
      rw [Nat.add_zero, hhead]
      exact List.mem_append.mpr (Or.inr (List.mem_cons_self _ _))
    | succ m' =>
      cases k with
      | zero => omega
      | succ k' =>
        have hok' : ∀ j, j < k' →
            (service (i0 + 1 + j)
              (create_formatted_prompt sl tl (rest.getD j []))).err = none := by
          intro j hj
          have h := hok (j + 1) (by omega)
          rw [List.getD_cons_succ] at h
          rwa [show i0 + 1 + j = i0 + (j + 1) from by omega]
        have hmem := ih k' m' (i0 + 1)
          (full ++ accumFrags (service i0 (create_formatted_prompt sl tl chunk)).frags ++ chunkSep)
          (by simpa using Nat.lt_succ_iff.mp hk) hok' (by omega)
        have hconv : (full ++ accumFrags (service i0 (create_formatted_prompt sl tl chunk)).frags
              ++ chunkSep) ++ doneAccum service sl tl (i0 + 1) (rest.take (m' + 1))
            = full ++ doneAccum service sl tl i0 ((chunk :: rest).take (m' + 1 + 1)) := by
          rw [List.take_succ_cons, doneAccum]
          simp [List.append_assoc]
        have hidx : i0 + 1 + m' = i0 + (m' + 1) := by omega
        rw [hconv, hidx] at hmem
        exact List.mem_append.mpr (Or.inr (List.mem_cons_of_mem _ hmem))

theorem streamGo_requested_prefix (service : StreamService) (sl tl url : String) (total : Nat) :
    ∀ (chunks : List Text) (i0 : Nat) (full : Text),
      ∃ n, n ≤ chunks.length
        ∧ (streamGo service sl tl url total chunks i0 full).requested
            = (List.range n).map (fun j => i0 + j) := by
  intro chunks
  induction chunks with
  | nil =>
    intro i0 full
    exact ⟨0, by simp, by simp [streamGo_nil]⟩
  | cons chunk rest ih =>
    intro i0 full
    cases herr : (service i0 (create_formatted_prompt sl tl chunk)).err with
    | some e =>
      refine ⟨1, by simp, ?_⟩
      rw [streamGo_cons_err service sl tl url total chunk rest i0 full e herr]
      rw [range_map_succ_shift i0 0]
      simp
    | none =>
      obtain ⟨n, hn, hreq⟩ := ih (i0 + 1)
        (full ++ accumFrags (service i0 (create_formatted_prompt sl tl chunk)).frags ++ chunkSep)
      refine ⟨n + 1, by simpa using Nat.succ_le_succ hn, ?_⟩
      rw [streamGo_cons_ok service sl tl url total chunk rest i0 full herr]
      rw [range_map_succ_shift i0 n]
      exact congrArg (List.cons i0) hreq

/-- C5 (amended: the code appends the chunk separator after every completed
chunk, so the accumulated text carries `N` separators for `N` completed
chunks, including a trailing one, rather than `N - 1` separators between
them): in streaming mode, while the first `k` chunks succeed, after each
completed chunk `m < k` the driver emits the accumulated text equal to the
ordered concatenation of the completed chunks' translations, each followed
by one chunk separator, and the requested chunk numbers always form an
order-preserving initial range `0..n-1` of the chunk array; in batch mode,
the previews are exactly the successive accumulated concatenations of the
per-chunk contributions in chunk order (translation plus separator for a
successful chunk, inline error marker for a failed one) and the requested
chunk numbers are exactly `0..N-1` in order. -/
theorem accumulated_translation_invariant :
    (∀ (service : StreamService) (sl tl url : String) (text : Text) (M k m : Nat),
       k ≤ (split_text_into_chunks text M).length →
       (∀ j, j < k → (service j (create_formatted_prompt sl tl
           ((split_text_into_chunks text M).getD j []))).err = none) →
       m < k →
       (doneAccum service sl tl 0 ((split_text_into_chunks text M).take (m + 1)),
          completedLabel m (split_text_into_chunks text M).length)
         ∈ (translate_streaming service sl tl url text M).yields)
    ∧ (∀ (service : StreamService) (sl tl url : String) (text : Text) (M : Nat),
       ∃ n, n ≤ (split_text_into_chunks text M).length
         ∧ (translate_streaming service sl tl url text M).requested = List.range n)
    ∧ (∀ (service : BlockingService) (sl tl : String) (text : Text) (M : Nat),
       (translate_file_process service sl tl text M).yields
         = (startingLabel (split_text_into_chunks text M).length).toList
             :: (List.range (split_text_into_chunks text M).length).map
                  (fun m => batchAccum service sl tl 0 ((split_text_into_chunks text M).take (m + 1)))
             ++ [batchAccum service sl tl 0 (split_text_into_chunks text M)]
         ∧ (translate_file_process service sl tl text M).requested
             = List.range (split_text_into_chunks text M).length) := by
  refine ⟨?_, ?_, ?_⟩
  · intro service sl tl url text M k m hk hok hm
    by_cases htext : text = []
    · subst htext
      simp [split_text_into_chunks] at hk
      omega
    · have hok0 : ∀ j, j < k → (service (0 + j) (create_formatted_prompt sl tl
          ((split_text_into_chunks text M).getD j []))).err = none := by
        intro j hj
        rw [Nat.zero_add]
        exact hok j hj
      have hmem := streamGo_mem_completed service sl tl url
        (split_text_into_chunks text M).length (split_text_into_chunks text M)
        k m 0 [] hk hok0 hm
      rw [translate_streaming, if_neg htext]
      simpa using hmem
  · intro service sl tl url text M
    by_cases htext : text = []
    · refine ⟨0, by simp, ?_⟩
      subst htext
      simp [translate_streaming]
    · obtain ⟨n, hn, hreq⟩ := streamGo_requested_prefix service sl tl url
        (split_text_into_chunks text M).length (split_text_into_chunks text M) 0 []
      refine ⟨n, hn, ?_⟩
      rw [translate_streaming, if_neg htext, hreq]
      simp
  · intro service sl tl text M
    rw [translate_file_process_closed]
    exact ⟨rfl, rfl⟩

/-- C5 counterexample: with one chunk ("hi", limit 10) whose service stream
returns "X" and completes, the emitted accumulated output after the chunk
completes is "X\n\n" — translation plus a trailing separator — whereas the
claim as stated demands zero separators (`N - 1` for `N = 1`), i.e. exactly
"X". -/
theorem accumulated_translation_trailing_sep_cex :
    (translate_streaming (fun _ _ => ⟨[some ("X").toList], none⟩) "English" "Korean" "u"
        ("hi").toList 10).yields.getLast?
      = some (("X\n\n").toList, completedLabel 0 1)
    ∧ ("X\n\n").toList ≠ ("X").toList := by
  exact ⟨by decide, by decide⟩

theorem accumulated_translation_invariant_witness :
    ((doneAccum (fun _ _ => ⟨[some ("Y").toList], none⟩) "English" "Korean" 0
        ((split_text_into_chunks ("hi").toList 10).take 1),
      completedLabel 0 (split_text_into_chunks ("hi").toList 10).length)
      ∈ (translate_streaming (fun _ _ => ⟨[some ("Y").toList], none⟩) "English" "Korean" "u"
          ("hi").toList 10).yields)
    ∧ (translate_file_process (fun _ _ => Except.ok (some ("Z").toList)) "English" "Korean"
        ("hi").toList 10).requested
        = List.range (split_text_into_chunks ("hi").toList 10).length := by
  constructor
  · exact accumulated_translation_invariant.1
      (fun _ _ => ⟨[some ("Y").toList], none⟩) "English" "Korean" "u" ("hi").toList 10 1 0
      (by decide)
      (fun j hj => by
        have hj0 : j = 0 := Nat.lt_one_iff.mp hj
        subst hj0
        rfl)
      (by decide)
  · exact (accumulated_translation_invariant.2.2
      (fun _ _ => Except.ok (some ("Z").toList)) "English" "Korean" ("hi").toList 10).2
